import Mathlib

/-!
Verification development for the `scippr` hierarchical-inference notebook.

The notebook estimates cosmological hyperparameters `(H0, Om0)` from a catalog of
per-supernova interim log-posteriors over (type, redshift, distance modulus),
reweighting them by a cosmology-dependent hyperlikelihood on a discretized grid and
sampling the resulting hyperposterior with an ensemble MCMC driver whose burn-in is
terminated by a Gelman-Rubin convergence test.

The definitions below are a shallow embedding of the notebook's code.  Machine floats
are modelled as real numbers; numpy arrays of fixed shape are modelled as functions
`Nat -> Real` (one argument per axis) together with explicit axis lengths, or as
`List` values where the code itself is list-like (the row loop of `mu_binner`).
Operations that can raise a Python exception (`IndexError` from indexing,
`AssertionError` from a failed `assert`, `ValueError` from an invalid numpy
broadcast) are modelled with `Option`, `none` being the raising outcome.
Data loaded from `data/data.hkl` (grids, catalog, interim prior, selection function)
and the astropy `FlatLambdaCDM(...).distmod` collaborator are not part of the source:
they are fields of the context structure `Scippr` and are quantified over.
-/

open Finset
open scoped Classical

/-- Python `sys.float_info.min`, the smallest positive normal double: `2 ^ (-1022)`.
Bound to the notebook's module-level name `epsilon`. -/
noncomputable def epsilon : ℝ := (2 : ℝ) ^ (-1022 : ℤ)

/-- Python `sys.float_info.min_exp = -1021`, bound to the notebook's module-level name
`log_epsilon`.  (It is a binary exponent, not the logarithm of `epsilon`.) -/
noncomputable def log_epsilon : ℝ := -1021

/-- Element-wise action of the notebook's `safe_log(arr, threshold=epsilon)`:
`np.log(max(a, threshold))` with the default threshold `epsilon`. -/
noncomputable def safe_log (x : ℝ) : ℝ := Real.log (max x epsilon)

/-- Element-wise action of the notebook's `reg_vals(arr, threshold=log_epsilon)`:
`arr[arr < threshold] = threshold` replaces every entry below the threshold by the
threshold (the default threshold is `log_epsilon`). -/
noncomputable def reg_vals (x : ℝ) : ℝ := if x < log_epsilon then log_epsilon else x

/-- Call model of `safe_log` on a whole (flattened) array: first component is the
returned array, second component is the caller's input array after the call.
`safe_log` builds a fresh array (`arr.flatten()` copies), so the input is unchanged. -/
noncomputable def safe_log_call (arr : List ℝ) : List ℝ × List ℝ :=
  (arr.map (fun a => safe_log a), arr)

/-- Call model of `reg_vals` on a whole (flattened) array: first component is the
returned array, second component is the caller's input array after the call.
`reg_vals` assigns through the boolean mask `arr[arr < threshold] = threshold`, which
mutates the argument in place and then returns that same array. -/
noncomputable def reg_vals_call (arr : List ℝ) : List ℝ × List ℝ :=
  (arr.map (fun a => reg_vals a), arr.map (fun a => reg_vals a))

/-- Python standard-library `bisect.bisect(a, x)` (`= bisect_right`), modelled by its
documented contract: the insertion point for `x` in `a`.  On the sorted lists the
notebook feeds it (grid bin edges are strictly increasing) this is the number of
elements `≤ x`, which is what this recursion computes. -/
def bisect {α : Type} [LinearOrder α] : List α → α → ℕ
  | [], _ => 0
  | e :: rest, x => if e ≤ x then bisect rest x + 1 else bisect rest x

/-- Python list/array indexing of a length-`n` sequence at a possibly negative index:
`0 ≤ i < n` reads position `i`, `-n ≤ i < 0` reads position `n + i`, and anything
else raises `IndexError` (modelled as `none`). -/
def py_index (n : ℕ) (i : ℤ) : Option ℕ :=
  if 0 ≤ i ∧ i < (n : ℤ) then some i.toNat
  else if -(n : ℤ) ≤ i ∧ i < 0 then some (i + (n : ℤ)).toNat
  else none

/-- The index computed per row inside `mu_binner`:
`ind = bisect.bisect(mu_bins[:-1], mu) - 1`. -/
def mu_binner_ind {α : Type} [LinearOrder α] (mu_bins : List α) (mu : α) : ℤ :=
  (bisect mu_bins.dropLast mu : ℤ) - 1

/-- One loop iteration of `mu_binner`: `vector = np.zeros(n_mus)`, then
`vector[ind] += 1` (with `n_mus = len(mu_bins) - 1` and Python negative indexing);
`none` models the `IndexError` outcome. -/
def mu_binner_row {α : Type} [LinearOrderedField α] (mu_bins : List α) (mu : α) :
    Option (List α) :=
  (py_index (mu_bins.length - 1) (mu_binner_ind mu_bins mu)).map
    (fun i => (List.replicate (mu_bins.length - 1) (0 : α)).set i 1)

/-- The `matrix` accumulated by `mu_binner`'s `for mu in mus` loop: one row per input
distance modulus, an exception in any iteration aborting the whole call. -/
def mu_binner_rows {α : Type} [LinearOrderedField α] (mu_bins : List α) :
    List α → Option (List (List α))
  | [] => some []
  | mu :: rest =>
    match mu_binner_row mu_bins mu, mu_binner_rows mu_bins rest with
    | some r, some rs => some (r :: rs)
    | _, _ => none

/-- The notebook's `mu_binner(mus)`: builds the `[len(mus)][n_mus]` one-hot matrix and
broadcasts it over the type axis via `np.array([matrix] * n_types)`. -/
def mu_binner {α : Type} [LinearOrderedField α] (mu_bins : List α) (n_types : ℕ)
    (mus : List α) : Option (List (List (List α))) :=
  (mu_binner_rows mu_bins mus).map (fun matrix => List.replicate n_types matrix)

/-- Read a 3-D nested-list array at indices `(t, i, j)` (in-range by construction
wherever this is used). -/
def get3 (A : List (List (List ℝ))) (t i j : ℕ) : ℝ :=
  ((A.getD t []).getD i []).getD j 0

/-- The data and external collaborators the notebook loads or imports before the
inference code runs: the grids and catalog from `data/data.hkl`, and astropy's
`FlatLambdaCDM(H0, Om0).distmod` function (a black box `(H0, Om0, z) ↦ mu`). -/
structure Scippr where
  n_types : ℕ
  z_bins : List ℝ
  mu_bins : List ℝ
  n_SNe : ℕ
  lninterimposteriors : ℕ → ℕ → ℕ → ℕ → ℝ
  interim_ln_prior : ℕ → ℕ → ℕ → ℝ
  ln_selection_function : ℕ → ℕ → ℕ → ℝ
  distmod : ℝ → ℝ → ℝ → ℝ

/-- `n_zs = len(z_difs) = len(z_bins) - 1`. -/
def n_zs (c : Scippr) : ℕ := c.z_bins.length - 1

/-- `n_mus = len(mu_difs) = len(mu_bins) - 1`. -/
def n_mus (c : Scippr) : ℕ := c.mu_bins.length - 1

/-- `z_difs = z_bins[1:] - z_bins[:-1]`, read at bin index `i < n_zs`. -/
noncomputable def z_difs (c : Scippr) (i : ℕ) : ℝ := c.z_bins.getD (i + 1) 0 - c.z_bins.getD i 0

/-- `z_mids = (z_bins[1:] + z_bins[:-1]) / 2`, read at bin index `i < n_zs`. -/
noncomputable def z_mids (c : Scippr) (i : ℕ) : ℝ := (c.z_bins.getD (i + 1) 0 + c.z_bins.getD i 0) / 2

/-- `mu_difs = mu_bins[1:] - mu_bins[:-1]`, read at bin index `j < n_mus`. -/
noncomputable def mu_difs (c : Scippr) (j : ℕ) : ℝ := c.mu_bins.getD (j + 1) 0 - c.mu_bins.getD j 0

/-- The redshift midpoints as the list `z_mids` passed to `distmod`. -/
noncomputable def z_mids_list (c : Scippr) : List ℝ := (List.range (n_zs c)).map (z_mids c)

/-- `sample_cosmo.distmod(z_mids).value` for `sample_cosmo = FlatLambdaCDM(H0, Om0)`:
the distance modulus of every redshift-grid midpoint under the proposed cosmology. -/
noncomputable def distmods (c : Scippr) (h : ℝ × ℝ) : List ℝ :=
  (z_mids_list c).map (c.distmod h.1 h.2)

/-- Admissible-box bound `min_H0 = 50.`. -/
noncomputable def min_H0 : ℝ := 50

/-- Admissible-box bound `max_H0 = 90.`. -/
noncomputable def max_H0 : ℝ := 90

/-- Admissible-box bound `min_Om0 = 0.`. -/
noncomputable def min_Om0 : ℝ := 0

/-- Admissible-box bound `max_Om0 = 1.`. -/
noncomputable def max_Om0 : ℝ := 1

/-- The notebook's `param_check(params)`: true exactly when both hyperparameters are
strictly inside the configured admissible box. -/
def param_check (p : ℝ × ℝ) : Prop :=
  min_H0 < p.1 ∧ p.1 < max_H0 ∧ min_Om0 < p.2 ∧ p.2 < max_Om0

/-- `scipy.stats.norm(loc, scale).logpdf(x)`:
`-((x - loc) / scale)^2 / 2 - log(sqrt(2*pi) * scale)`. -/
noncomputable def norm_logpdf (loc scale x : ℝ) : ℝ :=
  -((x - loc) / scale) ^ 2 / 2 - Real.log (Real.sqrt (2 * Real.pi) * scale)

/-- `H0_mean = wmap_H0 = 70.0`. -/
noncomputable def H0_mean : ℝ := 70

/-- `H0_std = delta_H0 = 2.2 * n_sigmas` with `n_sigmas = 2.`. -/
noncomputable def H0_std : ℝ := 4.4

/-- `Om0_mean = wmap_Om0 = 1. - 0.721`. -/
noncomputable def Om0_mean : ℝ := 0.279

/-- `Om0_std = delta_Om0 = 0.025 * n_sigmas` with `n_sigmas = 2.`. -/
noncomputable def Om0_std : ℝ := 0.05

/-- The notebook's `lnprior(hyperparameters)`: `prior_cosmo_dist.logpdf`, the sum of
the independent factors' log-densities (`indie_dist` over `H0_dist` and `Om0_dist`,
both `sps.norm`). -/
noncomputable def lnprior (h : ℝ × ℝ) : ℝ :=
  norm_logpdf H0_mean H0_std h.1 + norm_logpdf Om0_mean Om0_std h.2

/-- Every entry of `flat_hyperlikelihood = np.ones(np.shape(interim_ln_prior)) *
epsilon`. -/
noncomputable def flat_hyperlikelihood : ℝ := epsilon

/-- Every entry of `flat_lnhyperlikelihood = safe_log(flat_hyperlikelihood)`:
the constant flat fallback log-density array. -/
noncomputable def flat_lnhyperlikelihood : ℝ := safe_log flat_hyperlikelihood

/-- Numpy broadcasting of one axis: a size-1 axis is read at position 0, any other
size is read at the running position. -/
def bidx (n i : ℕ) : ℕ := if n = 1 then 0 else i

/-- Numpy compatibility of two axis sizes under broadcasting. -/
def bcast_ok (a b : ℕ) : Prop := a = b ∨ a = 1 ∨ b = 1

/-- The normalization denominator computed inside `lnhyperlikelihood`:
`np.sum(delta * z_difs[None,:,None] * mu_difs[None,None,:] * np.ones((n_types))[:,None,None] / n_types)`
(the `np.ones` factor is identically 1). -/
noncomputable def delta_sum (c : Scippr) (d : ℕ → ℕ → ℕ → ℝ) : ℝ :=
  ∑ t ∈ Finset.range c.n_types, ∑ i ∈ Finset.range (n_zs c), ∑ j ∈ Finset.range (n_mus c),
    d t i j * z_difs c i * mu_difs c j / c.n_types

/-- The value whose closeness to 1 the `assert` inside `lnhyperlikelihood` checks.
The code writes `mu_difs[np.newaxis, :, np.newaxis]` there — the distance-modulus
widths are placed on the REDSHIFT axis (the normalization line directly above uses
`mu_difs[np.newaxis, np.newaxis, :]`).  Under numpy broadcasting the middle axis has
size `max n_zs n_mus` and the `mu_difs` factor is indexed by the middle position,
which is what this sum transcribes. -/
noncomputable def assert_sum (c : Scippr) (dn : ℕ → ℕ → ℕ → ℝ) : ℝ :=
  ∑ t ∈ Finset.range c.n_types, ∑ i ∈ Finset.range (max (n_zs c) (n_mus c)),
    ∑ j ∈ Finset.range (n_mus c),
      dn t (bidx (n_zs c) i) j * z_difs c (bidx (n_zs c) i) * mu_difs c (bidx (n_mus c) i)
        / c.n_types

/-- `np.isclose(a, b)` with the default tolerances `rtol = 1e-05`, `atol = 1e-08`. -/
def isclose (a b : ℝ) : Prop := |a - b| ≤ 1 / 10 ^ 8 + 1 / 10 ^ 5 * |b|

/-- The `assert np.isclose(np.sum(...), 1.)` line of `lnhyperlikelihood` succeeds:
the broadcast must be valid (`ValueError` otherwise) and the broadcast sum must be
close to 1 (`AssertionError` otherwise). -/
noncomputable def assert_ok (c : Scippr) (dn : ℕ → ℕ → ℕ → ℝ) : Prop :=
  bcast_ok (n_zs c) (n_mus c) ∧ isclose (assert_sum c dn) 1

/-- Body of `lnhyperlikelihood`'s in-bounds branch after `mu_binner` has produced
`delta`: normalize `delta` by `delta_sum`, run the (mis-indexed) sanity `assert`,
and return `safe_log` of the normalized array; `none` models the raising outcomes. -/
noncomputable def lnhyperlikelihood_body (c : Scippr) (deltaL : List (List (List ℝ))) :
    Option (ℕ → ℕ → ℕ → ℝ) :=
  if assert_ok c (fun t i j => get3 deltaL t i j / delta_sum c (get3 deltaL))
  then some (fun t i j => safe_log (get3 deltaL t i j / delta_sum c (get3 deltaL)))
  else none

/-- The notebook's `lnhyperlikelihood(hyperparameters)`: inside the admissible box,
bin the midpoint distance moduli of the proposed cosmology, normalize and take
`safe_log`; outside the box, return the constant flat fallback array. -/
noncomputable def lnhyperlikelihood (c : Scippr) (h : ℝ × ℝ) :
    Option (ℕ → ℕ → ℕ → ℝ) :=
  if param_check h then
    (mu_binner c.mu_bins c.n_types (distmods c h)).bind (lnhyperlikelihood_body c)
  else some (fun _ _ _ => flat_lnhyperlikelihood)

/-- The notebook's module-level
`const_term = reg_vals(lninterimposteriors - lninterimhyperlikelihood[None,:] - lnselectionfunction[None,:])`,
computed once when the catalog is loaded (`lninterimhyperlikelihood` is the interim
prior and `lnselectionfunction` the selection function, broadcast over objects). -/
noncomputable def const_term (c : Scippr) (s t i j : ℕ) : ℝ :=
  reg_vals (c.lninterimposteriors s t i j - c.interim_ln_prior t i j -
    c.ln_selection_function t i j)

/-- The notebook's `lnposterior(hyperparameters)`: add the hyperlikelihood to the
precomputed constant term, clamp, exponentiate, integrate over the grid
(`Σ_mu · Δmu`, then `· Δz`, then `Σ_z`, then `/ n_types`, then `Σ_t`), take
`safe_log` per object and sum over objects.  `none` propagates a raise from
`lnhyperlikelihood`. -/
noncomputable def lnposterior (c : Scippr) (h : ℝ × ℝ) : Option ℝ :=
  (lnhyperlikelihood c h).map (fun new_term =>
    ∑ s ∈ Finset.range c.n_SNe,
      safe_log (∑ t ∈ Finset.range c.n_types,
        (∑ i ∈ Finset.range (n_zs c),
          (∑ j ∈ Finset.range (n_mus c),
            Real.exp (reg_vals (const_term c s t i j + new_term t i j)) * mu_difs c j)
            * z_difs c i)
          / c.n_types))

/-- The notebook's `lnhyperposterior(hyperparameters)`:
`max(lnprior(h) + lnposterior(h), log_epsilon)`. -/
noncomputable def lnhyperposterior (c : Scippr) (h : ℝ × ℝ) : Option ℝ :=
  (lnposterior c h).map (fun lp => max (lnprior h + lp) log_epsilon)

/-- `np.mean` of the first `n` entries of a row. -/
noncomputable def chain_mean (n : ℕ) (row : ℕ → ℝ) : ℝ :=
  (∑ j ∈ Finset.range n, row j) / n

/-- `np.var(..., ddof=1)` of the first `n` entries of a row: the unbiased sample
variance with divisor `n - 1`. -/
noncomputable def chain_var (n : ℕ) (row : ℕ → ℝ) : ℝ :=
  (∑ j ∈ Finset.range n, (row j - chain_mean n row) ^ 2) / ((n : ℝ) - 1)

/-- `W = np.mean(ssq, axis=0)` in `single_parameter_gr_stat`: the mean over the `m`
chains of each chain's unbiased sample variance. -/
noncomputable def W_stat (m n : ℕ) (chain : ℕ → ℕ → ℝ) : ℝ :=
  (∑ i ∈ Finset.range m, chain_var n (chain i)) / m

/-- `xbb = np.mean(xb, axis=0)` in `single_parameter_gr_stat`: the grand mean of the
per-chain means. -/
noncomputable def xbb_stat (m n : ℕ) (chain : ℕ → ℕ → ℝ) : ℝ :=
  (∑ i ∈ Finset.range m, chain_mean n (chain i)) / m

/-- `B = n / (m - 1.) * np.sum((xbb - xb)**2., axis=0)` in
`single_parameter_gr_stat`: the between-chain variance. -/
noncomputable def B_stat (m n : ℕ) (chain : ℕ → ℕ → ℝ) : ℝ :=
  (n : ℝ) / ((m : ℝ) - 1) *
    ∑ i ∈ Finset.range m, (xbb_stat m n chain - chain_mean n (chain i)) ^ 2

/-- `var_x = (n - 1.) / n * W + 1. / n * B` in `single_parameter_gr_stat`. -/
noncomputable def var_x_stat (m n : ℕ) (chain : ℕ → ℕ → ℝ) : ℝ :=
  ((n : ℝ) - 1) / n * W_stat m n chain + 1 / n * B_stat m n chain

/-- The notebook's `single_parameter_gr_stat(chain)` on an `m`-chain, `n`-sample
ensemble: `R_hat = np.sqrt(var_x / W)`. -/
noncomputable def single_parameter_gr_stat (m n : ℕ) (chain : ℕ → ℕ → ℝ) : ℝ :=
  Real.sqrt (var_x_stat m n chain / W_stat m n chain)

/-- The notebook's `multi_parameter_gr_stat(sample)` at parameter `i`, for `sample`
of shape `[n_walkers][n_iterations][n_params]`: discard the first
`n_burn_ins = n_iterations / 2` iterations (integer division) and run
`single_parameter_gr_stat` on the remaining `n_iterations - n_burn_ins` samples of
each walker. -/
noncomputable def multi_parameter_gr_stat (n_walkers n_iterations : ℕ)
    (sample : ℕ → ℕ → ℕ → ℝ) (i : ℕ) : ℝ :=
  single_parameter_gr_stat n_walkers (n_iterations - n_iterations / 2)
    (fun w j => sample w (n_iterations / 2 + j) i)

/-- `np.max` of the first `n` entries of a vector (`n ≥ 1` wherever the notebook
uses it). -/
noncomputable def np_max (f : ℕ → ℝ) : ℕ → ℝ
  | 0 => 0
  | 1 => f 0
  | k + 2 => max (np_max f (k + 1)) (f (k + 1))

/-- Configuration constant `nwalkers = 100`. -/
def nwalkers : ℕ := 100

/-- Configuration constant `nsteps = 1000`. -/
def nsteps : ℕ := 1000

/-- Configuration constant `ninit = 100`. -/
def ninit : ℕ := 100

/-- Configuration constant `gr_limit = 1.2`, the default `threshold` of `gr_test`. -/
noncomputable def gr_limit : ℝ := 1.2

/-- `n_cosmo_hyperparams = len(prior_cosmo_hyperparams) = 2`. -/
def n_cosmo_hyperparams : ℕ := 2

/-- The notebook's `gr_test(sample, threshold=gr_limit)` on the cumulative chain of
shape `[nwalkers][chain_len][n_cosmo_hyperparams]`:
`np.max(multi_parameter_gr_stat(sample)) > threshold`. -/
noncomputable def gr_test (chain_len : ℕ) (full_chain : ℕ → ℕ → ℕ → ℝ)
    (threshold : ℝ) : Prop :=
  np_max (multi_parameter_gr_stat nwalkers chain_len full_chain) n_cosmo_hyperparams
    > threshold

/-- Driver state of `run_MCMC`'s burn-in loop: current walker positions `vals`, the
cumulative chain (`full_chain` with `chain_len` iterations per walker), and the
completed epoch count `burn_ins`. -/
structure MCState where
  vals : ℕ → ℕ → ℝ
  chain_len : ℕ
  full_chain : ℕ → ℕ → ℕ → ℝ
  burn_ins : ℕ

/-- `np.concatenate((old, seg), axis=1)`: append a sampled segment to the cumulative
chain along the iteration axis. -/
noncomputable def concat_chain (len : ℕ) (old seg : ℕ → ℕ → ℕ → ℝ) : ℕ → ℕ → ℕ → ℝ :=
  fun w j p => if j < len then old w j p else seg w (j - len) p

/-- One body execution of `run_MCMC`'s `while burning_in` loop, with the emcee
ensemble sampler abstracted as an oracle
`sampler : epoch index → start positions → step count → segment`
(epoch-indexed to model its fresh randomness; the hickle checkpoint dump and the
progress plot are external side effects with no bearing on the state): sample
`ninit` steps, append the segment to the cumulative chain, restart `vals` from each
walker's last sample (`item[-1]`), and count the epoch. -/
noncomputable def burn_in_epoch (sampler : ℕ → (ℕ → ℕ → ℝ) → ℕ → (ℕ → ℕ → ℕ → ℝ))
    (st : MCState) : MCState :=
  { vals := fun w p => sampler st.burn_ins st.vals ninit w (ninit - 1) p
    chain_len := st.chain_len + ninit
    full_chain := concat_chain st.chain_len st.full_chain
      (sampler st.burn_ins st.vals ninit)
    burn_ins := st.burn_ins + 1 }

/-- The `while burning_in` loop of `run_MCMC`: keep running burn-in epochs while
`gr_test` on the cumulative chain exceeds the threshold.  The notebook's loop is
unbounded; `fuel` bounds the recursion, `none` meaning the loop was still burning in
after `fuel` epochs. -/
noncomputable def run_MCMC_loop (sampler : ℕ → (ℕ → ℕ → ℝ) → ℕ → (ℕ → ℕ → ℕ → ℝ)) :
    ℕ → MCState → Option MCState
  | 0, _ => none
  | fuel + 1, st =>
    if gr_test (burn_in_epoch sampler st).chain_len (burn_in_epoch sampler st).full_chain
        gr_limit
    then run_MCMC_loop sampler fuel (burn_in_epoch sampler st)
    else some (burn_in_epoch sampler st)

/-- The initial driver state of `run_MCMC(ivals)`:
`full_chain = np.array([[ivals[w]] for w in range(nwalkers)])` (one iteration per
walker), `vals = ivals`, `burn_ins = 0`. -/
noncomputable def init_state (ivals : ℕ → ℕ → ℝ) : MCState :=
  { vals := ivals
    chain_len := 1
    full_chain := fun w _ p => ivals w p
    burn_ins := 0 }

/-- The notebook's `run_MCMC(ivals)`: burn in until `gr_test` passes, then run the
production epoch of `nsteps` steps from the final walker positions and append it to
the cumulative chain (returned together with its iteration count). -/
noncomputable def run_MCMC (sampler : ℕ → (ℕ → ℕ → ℝ) → ℕ → (ℕ → ℕ → ℕ → ℝ))
    (fuel : ℕ) (ivals : ℕ → ℕ → ℝ) : Option (ℕ × (ℕ → ℕ → ℕ → ℝ)) :=
  (run_MCMC_loop sampler fuel (init_state ivals)).map (fun st =>
    (st.chain_len + nsteps,
      concat_chain st.chain_len st.full_chain (sampler st.burn_ins st.vals nsteps)))

/-- A minimal concrete context: an empty catalog over empty grids.  Used to witness
theorems whose hypotheses only need some context in which the functions return. -/
noncomputable def c_triv : Scippr :=
  { n_types := 0
    z_bins := []
    mu_bins := []
    n_SNe := 0
    lninterimposteriors := fun _ _ _ _ => 0
    interim_ln_prior := fun _ _ _ => 0
    ln_selection_function := fun _ _ _ => 0
    distmod := fun _ _ _ => 0 }

/-- A concrete well-formed context on which `lnhyperlikelihood` raises for in-bounds
hyperparameters: one type, redshift edges `[0,1,2]` (uniform widths), distance-modulus
edges `[0,1,3]` (non-uniform widths), and a distance-modulus collaborator that sends
every redshift to `1/2` (first mu bin). -/
noncomputable def c_bug : Scippr :=
  { n_types := 1
    z_bins := [0, 1, 2]
    mu_bins := [0, 1, 3]
    n_SNe := 0
    lninterimposteriors := fun _ _ _ _ => 0
    interim_ln_prior := fun _ _ _ => 0
    ln_selection_function := fun _ _ _ => 0
    distmod := fun _ _ _ => 1 / 2 }

/-- A concrete context exercising the distance-modulus binning: redshift edges
`[0,1,2]`, distance-modulus edges `[0,1,2,3]`, and the identity distance-modulus
collaborator. -/
noncomputable def c_bin : Scippr :=
  { n_types := 2
    z_bins := [0, 1, 2]
    mu_bins := [0, 1, 2, 3]
    n_SNe := 0
    lninterimposteriors := fun _ _ _ _ => 0
    interim_ln_prior := fun _ _ _ => 0
    ln_selection_function := fun _ _ _ => 0
    distmod := fun _ _ z => z }

/-- A concrete two-chain, two-sample ensemble with identical chains `[0, 1]`,
used to witness the Gelman-Rubin theorems. -/
noncomputable def chain2 : ℕ → ℕ → ℝ := fun _ j => (j : ℝ)

/-! ### Helper lemmas about `bisect`, `py_index` and `mu_binner` rows -/

theorem bisect_le_length {α : Type} [LinearOrder α] (a : List α) (x : α) :
    bisect a x ≤ a.length := by
  induction a with
  | nil => simp [bisect]
  | cons e rest ih =>
    by_cases hex : e ≤ x
    · simp only [bisect, if_pos hex, List.length_cons]
      exact Nat.succ_le_succ ih
    · simp only [bisect, if_neg hex, List.length_cons]
      exact ih.trans (Nat.le_succ _)

theorem bisect_eq_zero {α : Type} [LinearOrder α] {a : List α} {x : α}
    (h : ∀ y ∈ a, x < y) : bisect a x = 0 := by
  induction a with
  | nil => rfl
  | cons e rest ih =>
    have hex : ¬ e ≤ x := not_le.mpr (h e (List.mem_cons_self e rest))
    simp only [bisect, if_neg hex]
    exact ih (fun y hy => h y (List.mem_cons_of_mem e hy))

theorem bisect_spec {α : Type} [LinearOrder α] :
    ∀ {a : List α}, a.Pairwise (· < ·) → ∀ (x : α) (i : ℕ), i < a.length → ∀ d : α,
      (a.getD i d ≤ x ↔ i < bisect a x) := by
  intro a
  induction a with
  | nil => intro _ x i hi; simp at hi
  | cons e rest ih =>
    intro hs x i hi d
    obtain ⟨he, hrest⟩ := List.pairwise_cons.mp hs
    by_cases hex : e ≤ x
    · rw [show bisect (e :: rest) x = bisect rest x + 1 from by simp [bisect, hex]]
      cases i with
      | zero => simpa [List.getD_cons_zero] using hex
      | succ i' =>
        have hi' : i' < rest.length := by simpa using hi
        rw [List.getD_cons_succ, ih hrest x i' hi' d]
        omega
    · have hall : ∀ y ∈ e :: rest, x < y := by
        intro y hy
        rcases List.mem_cons.mp hy with rfl | hy'
        · exact lt_of_not_le hex
        · exact lt_trans (lt_of_not_le hex) (he y hy')
      rw [bisect_eq_zero hall]
      constructor
      · intro hle
        have hmem : (e :: rest).getD i d ∈ e :: rest := by
          rw [List.getD_eq_getElem _ _ hi]
          exact List.getElem_mem _
        exact absurd hle (not_le.mpr (hall _ hmem))
      · intro h0; omega

theorem py_index_neg_one (n : ℕ) (hn : 1 ≤ n) : py_index n (-1) = some (n - 1) := by
  rw [py_index, if_neg (by omega), if_pos (by omega)]
  congr 1
  omega

theorem py_index_of_lt (n k : ℕ) (hk : k < n) : py_index n (k : ℤ) = some k := by
  rw [py_index, if_pos (by omega)]
  congr 1

theorem mu_binner_row_of_bisect_zero {α : Type} [LinearOrderedField α]
    {mu_bins : List α} {mu : α} (hlen : 2 ≤ mu_bins.length)
    (h0 : bisect mu_bins.dropLast mu = 0) :
    mu_binner_row mu_bins mu =
      some ((List.replicate (mu_bins.length - 1) (0 : α)).set (mu_bins.length - 2) 1) := by
  rw [mu_binner_row, mu_binner_ind, h0]
  rw [show ((0 : ℕ) : ℤ) - 1 = -1 from by decide]
  rw [py_index_neg_one (mu_bins.length - 1) (by omega)]
  rw [Option.map_some']
  congr 2

theorem mu_binner_row_of_bisect_pos {α : Type} [LinearOrderedField α]
    {mu_bins : List α} {mu : α} (hlen : 2 ≤ mu_bins.length)
    (h1 : 1 ≤ bisect mu_bins.dropLast mu) :
    mu_binner_row mu_bins mu =
      some ((List.replicate (mu_bins.length - 1) (0 : α)).set
        (bisect mu_bins.dropLast mu - 1) 1) := by
  have hb : bisect mu_bins.dropLast mu ≤ mu_bins.length - 1 := by
    have h := bisect_le_length mu_bins.dropLast mu
    rwa [List.length_dropLast] at h
  rw [mu_binner_row, mu_binner_ind]
  rw [show (bisect mu_bins.dropLast mu : ℤ) - 1 =
      ((bisect mu_bins.dropLast mu - 1 : ℕ) : ℤ) from by omega]
  rw [py_index_of_lt _ _ (by omega)]
  rfl

theorem mu_binner_row_total {α : Type} [LinearOrderedField α]
    (mu_bins : List α) (mu : α) (hlen : 2 ≤ mu_bins.length) :
    ∃ k, k < mu_bins.length - 1 ∧
      mu_binner_row mu_bins mu =
        some ((List.replicate (mu_bins.length - 1) (0 : α)).set k 1) := by
  by_cases h0 : bisect mu_bins.dropLast mu = 0
  · exact ⟨mu_bins.length - 2, by omega, mu_binner_row_of_bisect_zero hlen h0⟩
  · have hb : bisect mu_bins.dropLast mu ≤ mu_bins.length - 1 := by
      have h := bisect_le_length mu_bins.dropLast mu
      rwa [List.length_dropLast] at h
    exact ⟨bisect mu_bins.dropLast mu - 1, by omega,
      mu_binner_row_of_bisect_pos hlen (by omega)⟩

theorem mu_binner_row_below {α : Type} [LinearOrderedField α]
    (mu_bins : List α) (mu : α) (hlen : 2 ≤ mu_bins.length)
    (hsort : mu_bins.Pairwise (· < ·)) (d : α)
    (hbelow : mu < mu_bins.getD 0 d) :
    mu_binner_row mu_bins mu =
      some ((List.replicate (mu_bins.length - 1) (0 : α)).set (mu_bins.length - 2) 1) := by
  have hlen0 : 0 < mu_bins.length := by omega
  have hhead : mu_bins.getD 0 d = mu_bins[0] := List.getD_eq_getElem _ _ hlen0
  have hpair := List.pairwise_iff_getElem.mp hsort
  have hall : ∀ y ∈ mu_bins.dropLast, mu < y := by
    intro y hy
    obtain ⟨i, hi, rfl⟩ := List.mem_iff_getElem.mp hy
    have hi' : i < mu_bins.length := by
      have := List.length_dropLast mu_bins
      omega
    rw [List.getElem_dropLast]
    rcases Nat.eq_zero_or_pos i with rfl | hipos
    · rw [← hhead]; exact hbelow
    · exact lt_trans (hhead ▸ hbelow) (hpair 0 i hlen0 hi' hipos)
  exact mu_binner_row_of_bisect_zero hlen (bisect_eq_zero hall)

/-! ### C8 -/

/-- C8 counterexample: `reg_vals` does mutate its caller's array.  On the one-element
array `[-2000]` (whose entry lies below the clamp floor `log_epsilon = -1021`) the
caller's array after the call differs from the original. -/
theorem C8_reg_vals_mutation_counterexample :
    (reg_vals_call [-2000]).2 ≠ [-2000] := by
  have hval : (reg_vals_call [-2000]).2 = [(-1021 : ℝ)] := by
    simp only [reg_vals_call, List.map_cons, List.map_nil]
    rw [reg_vals, if_pos (by norm_num [log_epsilon]), log_epsilon]
  rw [hval]
  intro hc
  have : (-1021 : ℝ) = -2000 := by
    have := congrArg (fun l : List ℝ => l.getD 0 0) hc
    simpa using this
  norm_num at this

/-- C8 amended: `safe_log` and `reg_vals` are total real-valued array functions that
never fail; `safe_log` returns element-wise `log (max x epsilon)` and leaves its
input unchanged, while `reg_vals` returns element-wise `max x log_epsilon` but does
so by mutating its input array in place, so after the call the caller's array equals
the returned (clamped) array rather than the original. -/
theorem C8_safe_log_pure_reg_vals_clamps_in_place (arr : List ℝ) :
    (safe_log_call arr).2 = arr ∧
    (safe_log_call arr).1 = arr.map (fun a => Real.log (max a epsilon)) ∧
    (reg_vals_call arr).1 = arr.map (fun a => max a log_epsilon) ∧
    (reg_vals_call arr).2 = (reg_vals_call arr).1 := by
  have hmax : ∀ a : ℝ, (if a < log_epsilon then log_epsilon else a) = max a log_epsilon := by
    intro a
    rcases le_or_lt log_epsilon a with hc | hc
    · rw [if_neg (not_lt.mpr hc), max_eq_left hc]
    · rw [if_pos hc, max_eq_right hc.le]
  refine ⟨rfl, rfl, ?_, rfl⟩
  simp only [reg_vals_call, reg_vals, hmax]

/-! ### C3 -/

/-- C3: for hyperparameters outside the admissible box, `lnhyperlikelihood` never
raises: it returns the constant flat floor-valued array `flat_lnhyperlikelihood`
(every entry `log epsilon`), and the result is the same whichever bound was violated
and whatever the hyperparameter values are. -/
theorem C3_out_of_bounds_flat (c : Scippr) (h h' : ℝ × ℝ)
    (hh : ¬ param_check h) (hh' : ¬ param_check h') :
    lnhyperlikelihood c h = some (fun _ _ _ => flat_lnhyperlikelihood) ∧
    flat_lnhyperlikelihood = Real.log epsilon ∧
    lnhyperlikelihood c h = lnhyperlikelihood c h' := by
  have e1 : lnhyperlikelihood c h = some (fun _ _ _ => flat_lnhyperlikelihood) := by
    rw [lnhyperlikelihood, if_neg hh]
  have e2 : lnhyperlikelihood c h' = some (fun _ _ _ => flat_lnhyperlikelihood) := by
    rw [lnhyperlikelihood, if_neg hh']
  refine ⟨e1, ?_, e1.trans e2.symm⟩
  rw [flat_lnhyperlikelihood, flat_hyperlikelihood, safe_log, max_self]

/-- C3 witness: two concretely out-of-bounds hyperparameter vectors (one beyond
`max_H0`, one below `min_H0`) both map to the same flat fallback array. -/
theorem C3_out_of_bounds_flat_witness :
    ¬ param_check (100, 1/2) ∧ ¬ param_check (40, 1/2) ∧
    (lnhyperlikelihood c_triv (100, 1/2) = some (fun _ _ _ => flat_lnhyperlikelihood) ∧
     flat_lnhyperlikelihood = Real.log epsilon ∧
     lnhyperlikelihood c_triv (100, 1/2) = lnhyperlikelihood c_triv (40, 1/2)) := by
  have h1 : ¬ param_check (100, 1/2) := by
    norm_num [param_check, min_H0, max_H0, min_Om0, max_Om0]
  have h2 : ¬ param_check (40, 1/2) := by
    norm_num [param_check, min_H0, max_H0, min_Om0, max_Om0]
  exact ⟨h1, h2, C3_out_of_bounds_flat c_triv (100, 1/2) (40, 1/2) h1 h2⟩

/-! ### C4 -/

/-- C4: whenever `lnposterior` returns a value `lp`, the hyperposterior is exactly
`max (lnprior h + lp) log_epsilon`; in particular it is bounded below by
`log_epsilon` (a finite real), so `-inf` can never propagate to the sampler. -/
theorem C4_lnhyperposterior_floor (c : Scippr) (h : ℝ × ℝ) (lp : ℝ)
    (hlp : lnposterior c h = some lp) :
    lnhyperposterior c h = some (max (lnprior h + lp) log_epsilon) ∧
    log_epsilon ≤ max (lnprior h + lp) log_epsilon := by
  constructor
  · rw [lnhyperposterior, hlp, Option.map_some']
  · exact le_max_right _ _

/-- C4 witness: on the empty catalog with out-of-bounds hyperparameters (so the flat
branch is taken and the object sum is empty) `lnposterior` returns `0`, and the floor
identity holds there. -/
theorem C4_lnhyperposterior_floor_witness :
    lnposterior c_triv (0, 1/2) = some 0 ∧
    (lnhyperposterior c_triv (0, 1/2) = some (max (lnprior (0, 1/2) + 0) log_epsilon) ∧
     log_epsilon ≤ max (lnprior (0, 1/2) + 0) log_epsilon) := by
  have hnp : ¬ param_check (0, 1/2) := by
    norm_num [param_check, min_H0, max_H0, min_Om0, max_Om0]
  have hlp : lnposterior c_triv (0, 1/2) = some 0 := by
    rw [lnposterior, lnhyperlikelihood, if_neg hnp, Option.map_some']
    simp [c_triv]
  exact ⟨hlp, C4_lnhyperposterior_floor c_triv (0, 1/2) 0 hlp⟩

/-! ### C1 -/

/-- C1: for every hyperparameter vector at which `lnhyperlikelihood` returns,
`lnposterior` is the sum over catalog objects of `safe_log` of the per-object grid
integral `Σ_t Σ_z Σ_mu exp (reg_vals (const_term + lnhyperlikelihood)) · Δmu · Δz /
n_types`, where `const_term` is the object-wise array
`reg_vals (catalog - interim prior - selection function)` computed once at catalog
load (it depends only on the context `c`, not on the hyperparameters). -/
theorem C1_lnposterior_objectwise (c : Scippr) (h : ℝ × ℝ)
    (new_term : ℕ → ℕ → ℕ → ℝ) (hnt : lnhyperlikelihood c h = some new_term) :
    lnposterior c h = some
      (∑ s ∈ Finset.range c.n_SNe,
        safe_log (∑ t ∈ Finset.range c.n_types, ∑ i ∈ Finset.range (n_zs c),
          ∑ j ∈ Finset.range (n_mus c),
            Real.exp (reg_vals (const_term c s t i j + new_term t i j))
              * mu_difs c j * z_difs c i / c.n_types)) := by
  rw [lnposterior, hnt, Option.map_some']
  congr 1
  refine Finset.sum_congr rfl (fun s _ => ?_)
  congr 1
  simp only [Finset.sum_div, Finset.sum_mul]

/-- C1 witness: at out-of-bounds hyperparameters on the empty catalog the
hyperlikelihood is the flat array and the object-wise decomposition holds. -/
theorem C1_lnposterior_objectwise_witness :
    lnhyperlikelihood c_triv (0, 1/2) = some (fun _ _ _ => flat_lnhyperlikelihood) ∧
    lnposterior c_triv (0, 1/2) = some
      (∑ s ∈ Finset.range c_triv.n_SNe,
        safe_log (∑ t ∈ Finset.range c_triv.n_types, ∑ i ∈ Finset.range (n_zs c_triv),
          ∑ j ∈ Finset.range (n_mus c_triv),
            Real.exp (reg_vals (const_term c_triv s t i j + flat_lnhyperlikelihood))
              * mu_difs c_triv j * z_difs c_triv i / c_triv.n_types)) := by
  have hnp : ¬ param_check (0, 1/2) := by
    norm_num [param_check, min_H0, max_H0, min_Om0, max_Om0]
  have hfl : lnhyperlikelihood c_triv (0, 1/2) =
      some (fun _ _ _ => flat_lnhyperlikelihood) := by
    rw [lnhyperlikelihood, if_neg hnp]
  exact ⟨hfl, C1_lnposterior_objectwise c_triv (0, 1/2) _ hfl⟩

/-! ### C2: the in-bounds branch of `lnhyperlikelihood` on the context `c_bug` -/

theorem c_bug_param_check : param_check (70, 3/10) := by
  refine ⟨?_, ?_, ?_, ?_⟩ <;> norm_num [min_H0, max_H0, min_Om0, max_Om0]

theorem c_bug_distmods : distmods c_bug (70, 3/10) = [1/2, 1/2] := by
  have hn : n_zs c_bug = 2 := rfl
  rw [distmods, z_mids_list, hn]
  rw [show List.range 2 = [0, 1] from rfl]
  norm_num [z_mids, c_bug, List.getD]

theorem c_bug_row : mu_binner_row (([0, 1, 3] : List ℝ)) (1/2) = some [1, 0] := by
  have hb : bisect (([0, 1, 3] : List ℝ).dropLast) (1/2) = 1 := by
    rw [show (([0, 1, 3] : List ℝ).dropLast) = [0, 1] from rfl]
    rw [show bisect ([0, 1] : List ℝ) (1/2) =
        if (0 : ℝ) ≤ 1/2 then bisect [(1 : ℝ)] (1/2) + 1 else bisect [(1 : ℝ)] (1/2)
      from rfl]
    rw [show bisect ([1] : List ℝ) (1/2) =
        if (1 : ℝ) ≤ 1/2 then bisect ([] : List ℝ) (1/2) + 1 else bisect ([] : List ℝ) (1/2)
      from rfl]
    rw [show bisect ([] : List ℝ) (1/2) = 0 from rfl]
    rw [if_pos (by norm_num : (0 : ℝ) ≤ 1/2)]
    rw [if_neg (by norm_num : ¬ (1 : ℝ) ≤ 1/2)]
  rw [mu_binner_row, mu_binner_ind, hb]
  rw [show ((1 : ℕ) : ℤ) - 1 = ((0 : ℕ) : ℤ) from by decide]
  rw [show (([0, 1, 3] : List ℝ).length - 1) = 2 from rfl]
  rw [py_index_of_lt 2 0 (by omega)]
  rw [Option.map_some']
  rfl

theorem c_bug_mu_binner :
    mu_binner c_bug.mu_bins c_bug.n_types (distmods c_bug (70, 3/10)) =
      some [[[1, 0], [1, 0]]] := by
  rw [c_bug_distmods]
  show mu_binner ([0, 1, 3] : List ℝ) 1 [1/2, 1/2] = some [[[1, 0], [1, 0]]]
  rw [mu_binner]
  have hrows : mu_binner_rows ([0, 1, 3] : List ℝ) [1/2, 1/2] = some [[1, 0], [1, 0]] := by
    have hrow2 : mu_binner_row ([0, 1, 3] : List ℝ) (2⁻¹) = some [1, 0] := by
      rw [show ((2 : ℝ)⁻¹) = 1/2 from by norm_num]
      exact c_bug_row
    simp [mu_binner_rows, hrow2]
  rw [hrows]
  rfl

theorem c_bug_delta_sum : delta_sum c_bug (get3 [[[1, 0], [1, 0]]]) = 2 := by
  rw [delta_sum]
  rw [show c_bug.n_types = 1 from rfl, show n_zs c_bug = 2 from rfl,
    show n_mus c_bug = 2 from rfl]
  rw [Finset.sum_range_one]
  rw [Finset.sum_range_succ, Finset.sum_range_one]
  rw [Finset.sum_range_succ, Finset.sum_range_one, Finset.sum_range_succ,
    Finset.sum_range_one]
  norm_num [get3, z_difs, mu_difs, c_bug, List.getD]

theorem c_bug_assert_sum :
    assert_sum c_bug (fun t i j => get3 [[[1, 0], [1, 0]]] t i j / 2) = 3/2 := by
  rw [assert_sum]
  rw [show c_bug.n_types = 1 from rfl, show n_zs c_bug = 2 from rfl,
    show n_mus c_bug = 2 from rfl]
  rw [show max 2 2 = 2 from rfl]
  rw [Finset.sum_range_one]
  rw [Finset.sum_range_succ, Finset.sum_range_one]
  rw [Finset.sum_range_succ, Finset.sum_range_one, Finset.sum_range_succ,
    Finset.sum_range_one]
  norm_num [bidx, get3, z_difs, mu_difs, c_bug, List.getD]

theorem c_bug_assert_fails :
    ¬ assert_ok c_bug (fun t i j =>
      get3 [[[1, 0], [1, 0]]] t i j / delta_sum c_bug (get3 [[[1, 0], [1, 0]]])) := by
  rintro ⟨-, hclose⟩
  rw [show (fun t i j =>
      get3 [[[1, 0], [1, 0]]] t i j / delta_sum c_bug (get3 [[[1, 0], [1, 0]]])) =
      (fun t i j => get3 [[[1, 0], [1, 0]]] t i j / 2) from by
    rw [c_bug_delta_sum]] at hclose
  rw [c_bug_assert_sum] at hclose
  rw [isclose] at hclose
  have habs : |(3 : ℝ)/2 - 1| = 1/2 := by
    rw [abs_of_nonneg (by norm_num : (0 : ℝ) ≤ 3/2 - 1)]
    norm_num
  rw [habs] at hclose
  norm_num at hclose

/-- C2 (status `code_bug`): on the well-formed context `c_bug` (strictly increasing
grids, positive bin widths, `n_zs = n_mus = 2` but non-uniform distance-modulus
widths) and the strictly in-bounds hyperparameters `(70, 3/10)`, `lnhyperlikelihood`
raises (`AssertionError`) instead of returning a normalized log-density array: its
sanity `assert` computes its check sum with `mu_difs` mis-indexed along the redshift
axis (`mu_difs[np.newaxis, :, np.newaxis]`, where the normalization line above uses
`mu_difs[np.newaxis, np.newaxis, :]`), so the checked value here is `3/2`, not `1`,
although the actually returned density would have integrated to `1`. -/
theorem C2_assert_raises_in_bounds :
    param_check (70, 3/10) ∧ lnhyperlikelihood c_bug (70, 3/10) = none := by
  refine ⟨c_bug_param_check, ?_⟩
  rw [lnhyperlikelihood, if_pos c_bug_param_check, c_bug_mu_binner]
  rw [show (some [[[1, 0], [1, 0]]]).bind (lnhyperlikelihood_body c_bug) =
      lnhyperlikelihood_body c_bug [[[1, 0], [1, 0]]] from rfl]
  rw [lnhyperlikelihood_body, if_neg c_bug_assert_fails]

/-! ### C5 -/

/-- C5: for in-bounds hyperparameters `lnhyperlikelihood` takes the binning branch,
whose delta array is `mu_binner` applied to the distance moduli of all redshift-grid
midpoints under the proposed cosmology (the external `distmod` collaborator); for
every such distance modulus that has a grid edge at or below it, the produced row is
the one-hot vector of the bin whose lower edge is the greatest edge `≤ mu` (the
insertion point located by `bisect.bisect`); and the `[n_z][n_mu]` matrix is
broadcast identically across all `n_types` type slices. -/
theorem C5_mu_binner_nearest_lower_edge (c : Scippr) (h : ℝ × ℝ)
    (hpc : param_check h) (hsort : c.mu_bins.Pairwise (· < ·))
    (hlen : 2 ≤ c.mu_bins.length) :
    lnhyperlikelihood c h =
      (mu_binner c.mu_bins c.n_types (distmods c h)).bind (lnhyperlikelihood_body c) ∧
    (∀ mu ∈ distmods c h, (∃ e ∈ c.mu_bins.dropLast, e ≤ mu) →
      ∃ k, k < n_mus c ∧
        mu_binner_row c.mu_bins mu =
          some ((List.replicate (n_mus c) (0 : ℝ)).set k 1) ∧
        c.mu_bins.dropLast.getD k 0 ≤ mu ∧
        (∀ i, i < n_mus c → c.mu_bins.dropLast.getD i 0 ≤ mu → i ≤ k)) ∧
    (∀ A, mu_binner c.mu_bins c.n_types (distmods c h) = some A →
      ∀ t1 t2, t1 < c.n_types → t2 < c.n_types → A.getD t1 [] = A.getD t2 []) := by
  refine ⟨by rw [lnhyperlikelihood, if_pos hpc], ?_, ?_⟩
  · intro mu _ hex
    have hsortL : c.mu_bins.dropLast.Pairwise (· < ·) :=
      List.Pairwise.sublist (List.dropLast_sublist c.mu_bins) hsort
    have hLlen : c.mu_bins.dropLast.length = c.mu_bins.length - 1 :=
      List.length_dropLast _
    obtain ⟨e, he, hle⟩ := hex
    obtain ⟨i0, hi0, rfl⟩ := List.mem_iff_getElem.mp he
    have hgd : c.mu_bins.dropLast.getD i0 0 = c.mu_bins.dropLast[i0] :=
      List.getD_eq_getElem _ _ hi0
    have hb1 : i0 < bisect c.mu_bins.dropLast mu :=
      (bisect_spec hsortL mu i0 hi0 0).mp (by rw [hgd]; exact hle)
    have hbpos : 1 ≤ bisect c.mu_bins.dropLast mu := by omega
    have hble : bisect c.mu_bins.dropLast mu ≤ n_mus c := by
      have hb := bisect_le_length c.mu_bins.dropLast mu
      rw [hLlen] at hb
      exact hb
    have hnm : n_mus c = c.mu_bins.length - 1 := rfl
    refine ⟨bisect c.mu_bins.dropLast mu - 1, by omega, ?_, ?_, ?_⟩
    · exact mu_binner_row_of_bisect_pos hlen hbpos
    · have hklen : bisect c.mu_bins.dropLast mu - 1 < c.mu_bins.dropLast.length := by
        omega
      exact (bisect_spec hsortL mu _ hklen 0).mpr (by omega)
    · intro i hi hile
      have hilen : i < c.mu_bins.dropLast.length := by omega
      have := (bisect_spec hsortL mu i hilen 0).mp hile
      omega
  · intro A hA t1 t2 ht1 ht2
    rw [mu_binner] at hA
    rcases hM : mu_binner_rows c.mu_bins (distmods c h) with _ | M
    · rw [hM] at hA; simp at hA
    · rw [hM, Option.map_some'] at hA
      have hAval : A = List.replicate c.n_types M := by
        exact ((Option.some.injEq _ _).mp hA).symm
      have hget : ∀ t, t < c.n_types → (List.replicate c.n_types M).getD t [] = M := by
        intro t ht
        rw [List.getD_eq_getElem _ _ (by simpa using ht), List.getElem_replicate]
      rw [hAval, hget t1 ht1, hget t2 ht2]

/-- C5 witness: on the context `c_bin` (edges `[0,1,2,3]`, two types, identity
distance-modulus map) with in-bounds hyperparameters `(70, 1/2)`, the binning
characterization holds. -/
theorem C5_mu_binner_nearest_lower_edge_witness :
    param_check (70, 1/2) ∧ c_bin.mu_bins.Pairwise (· < ·) ∧ 2 ≤ c_bin.mu_bins.length ∧
    (lnhyperlikelihood c_bin (70, 1/2) =
      (mu_binner c_bin.mu_bins c_bin.n_types (distmods c_bin (70, 1/2))).bind
        (lnhyperlikelihood_body c_bin) ∧
    (∀ mu ∈ distmods c_bin (70, 1/2), (∃ e ∈ c_bin.mu_bins.dropLast, e ≤ mu) →
      ∃ k, k < n_mus c_bin ∧
        mu_binner_row c_bin.mu_bins mu =
          some ((List.replicate (n_mus c_bin) (0 : ℝ)).set k 1) ∧
        c_bin.mu_bins.dropLast.getD k 0 ≤ mu ∧
        (∀ i, i < n_mus c_bin → c_bin.mu_bins.dropLast.getD i 0 ≤ mu → i ≤ k)) ∧
    (∀ A, mu_binner c_bin.mu_bins c_bin.n_types (distmods c_bin (70, 1/2)) = some A →
      ∀ t1 t2, t1 < c_bin.n_types → t2 < c_bin.n_types →
        A.getD t1 [] = A.getD t2 [])) := by
  have hpc : param_check (70, 1/2) := by
    refine ⟨?_, ?_, ?_, ?_⟩ <;> norm_num [min_H0, max_H0, min_Om0, max_Om0]
  have hsort : c_bin.mu_bins.Pairwise (· < ·) := by
    show (([0, 1, 2, 3] : List ℝ)).Pairwise (· < ·)
    norm_num [List.pairwise_cons]
  have hlen : 2 ≤ c_bin.mu_bins.length := by
    show 2 ≤ ([0, 1, 2, 3] : List ℝ).length
    norm_num
  exact ⟨hpc, hsort, hlen,
    C5_mu_binner_nearest_lower_edge c_bin (70, 1/2) hpc hsort hlen⟩

/-! ### C9 -/

/-- C9: with at least one distance-modulus bin, `mu_binner` never raises on any
finite list of distance moduli, however far outside the grid: it yields the
`mu_binner_rows` matrix (one row per input) replicated over all types, in which
every row is a one-hot vector (a zero row with exactly one entry set to 1), and any
input below the first bin edge lands in the LAST bin — the index `-1` produced by
`bisect` falls through Python's negative indexing instead of being rejected. -/
theorem C9_mu_binner_total_one_hot {α : Type} [LinearOrderedField α]
    (mu_bins : List α) (n_types : ℕ) (mus : List α)
    (hlen : 2 ≤ mu_bins.length) (hsort : mu_bins.Pairwise (· < ·)) :
    ∃ M, mu_binner_rows mu_bins mus = some M ∧
      mu_binner mu_bins n_types mus = some (List.replicate n_types M) ∧
      M.length = mus.length ∧
      (∀ row ∈ M, ∃ k, k < mu_bins.length - 1 ∧
        row = (List.replicate (mu_bins.length - 1) (0 : α)).set k 1) ∧
      (∀ i, i < mus.length → ∀ d : α, mus.getD i d < mu_bins.getD 0 d →
        M.getD i [] = (List.replicate (mu_bins.length - 1) (0 : α)).set
          (mu_bins.length - 2) 1) := by
  induction mus with
  | nil =>
    refine ⟨[], rfl, by rw [mu_binner]; rfl, rfl, ?_, ?_⟩
    · intro row hrow; exact absurd hrow (List.not_mem_nil row)
    · intro i hi; exact absurd hi (Nat.not_lt_zero i)
  | cons mu rest ih =>
    obtain ⟨M, hM, -, hMlen, hone, hbelow⟩ := ih
    obtain ⟨k0, hk0, hrow0⟩ := mu_binner_row_total mu_bins mu hlen
    have hrows : mu_binner_rows mu_bins (mu :: rest) =
        some (((List.replicate (mu_bins.length - 1) (0 : α)).set k0 1) :: M) := by
      rw [mu_binner_rows, hrow0, hM]
    refine ⟨_, hrows, by rw [mu_binner, hrows, Option.map_some'], by simp [hMlen],
      ?_, ?_⟩
    · intro row hrow
      rcases List.mem_cons.mp hrow with rfl | hrow'
      · exact ⟨k0, hk0, rfl⟩
      · exact hone row hrow'
    · intro i hi d hbel
      cases i with
      | zero =>
        rw [List.getD_cons_zero]
        rw [List.getD_cons_zero] at hbel
        have hthis := mu_binner_row_below mu_bins mu hlen hsort d hbel
        rw [hrow0] at hthis
        exact (Option.some.injEq _ _).mp hthis
      | succ i' =>
        rw [List.getD_cons_succ]
        rw [List.getD_cons_succ] at hbel
        exact hbelow i' (by simpa using hi) d hbel

/-- C9 witness: on the rational grid `[0, 1, 2]` with two types and inputs `-5`
(below the first edge), `1/2` (interior) and `10` (beyond the last edge),
`mu_binner` returns the replicated one-hot matrix. -/
theorem C9_mu_binner_total_one_hot_witness :
    2 ≤ ([0, 1, 2] : List ℚ).length ∧ (([0, 1, 2] : List ℚ)).Pairwise (· < ·) ∧
    (∃ M, mu_binner_rows ([0, 1, 2] : List ℚ) [-5, 1/2, 10] = some M ∧
      mu_binner ([0, 1, 2] : List ℚ) 2 [-5, 1/2, 10] = some (List.replicate 2 M) ∧
      M.length = ([-5, 1/2, 10] : List ℚ).length ∧
      (∀ row ∈ M, ∃ k, k < ([0, 1, 2] : List ℚ).length - 1 ∧
        row = (List.replicate (([0, 1, 2] : List ℚ).length - 1) (0 : ℚ)).set k 1) ∧
      (∀ i, i < ([-5, 1/2, 10] : List ℚ).length → ∀ d : ℚ,
        ([-5, 1/2, 10] : List ℚ).getD i d < ([0, 1, 2] : List ℚ).getD 0 d →
        M.getD i [] = (List.replicate (([0, 1, 2] : List ℚ).length - 1) (0 : ℚ)).set
          (([0, 1, 2] : List ℚ).length - 2) 1)) := by
  have h1 : 2 ≤ ([0, 1, 2] : List ℚ).length := by norm_num
  have h2 : (([0, 1, 2] : List ℚ)).Pairwise (· < ·) := by decide
  exact ⟨h1, h2, C9_mu_binner_total_one_hot ([0, 1, 2] : List ℚ) 2 [-5, 1/2, 10] h1 h2⟩

/-! ### Helper lemmas for the Gelman-Rubin statistics -/

theorem chain_mean_congr (n : ℕ) {r1 r2 : ℕ → ℝ} (h : ∀ j, j < n → r1 j = r2 j) :
    chain_mean n r1 = chain_mean n r2 := by
  rw [chain_mean, chain_mean]
  congr 1
  exact Finset.sum_congr rfl (fun j hj => h j (Finset.mem_range.mp hj))

theorem chain_var_congr (n : ℕ) {r1 r2 : ℕ → ℝ} (h : ∀ j, j < n → r1 j = r2 j) :
    chain_var n r1 = chain_var n r2 := by
  rw [chain_var, chain_var, chain_mean_congr n h]
  congr 1
  refine Finset.sum_congr rfl (fun j hj => ?_)
  rw [h j (Finset.mem_range.mp hj)]

/-! ### C6 -/

/-- C6: for an ensemble of `m ≥ 2` identical chains of length `n ≥ 2` with positive
within-chain variance, the between-chain variance `B` vanishes and the returned
Gelman-Rubin statistic is exactly `sqrt ((n - 1) / n)`: strictly below 1 and never
above 1. -/
theorem C6_gr_identical_chains (m n : ℕ) (hm : 2 ≤ m) (hn : 2 ≤ n)
    (chain : ℕ → ℕ → ℝ) (hid : ∀ i, i < m → ∀ j, j < n → chain i j = chain 0 j)
    (hW : 0 < chain_var n (chain 0)) :
    single_parameter_gr_stat m n chain = Real.sqrt (((n : ℝ) - 1) / n) ∧
    single_parameter_gr_stat m n chain < 1 ∧
    ¬ 1 < single_parameter_gr_stat m n chain := by
  have hmR : (2 : ℝ) ≤ m := by exact_mod_cast hm
  have hnR : (2 : ℝ) ≤ n := by exact_mod_cast hn
  have hm0 : (m : ℝ) ≠ 0 := by linarith
  have hWeq : W_stat m n chain = chain_var n (chain 0) := by
    rw [W_stat]
    rw [Finset.sum_congr rfl (fun i hi =>
      chain_var_congr n (fun j hj => hid i (Finset.mem_range.mp hi) j hj))]
    rw [Finset.sum_const, Finset.card_range, nsmul_eq_mul]
    rw [mul_div_cancel_left₀ _ hm0]
  have hxbb : xbb_stat m n chain = chain_mean n (chain 0) := by
    rw [xbb_stat]
    rw [Finset.sum_congr rfl (fun i hi =>
      chain_mean_congr n (fun j hj => hid i (Finset.mem_range.mp hi) j hj))]
    rw [Finset.sum_const, Finset.card_range, nsmul_eq_mul]
    rw [mul_div_cancel_left₀ _ hm0]
  have hB : B_stat m n chain = 0 := by
    rw [B_stat]
    rw [Finset.sum_eq_zero (fun i hi => by
      rw [chain_mean_congr n (fun j hj => hid i (Finset.mem_range.mp hi) j hj), hxbb]
      ring)]
    rw [mul_zero]
  have hvarx : var_x_stat m n chain = ((n : ℝ) - 1) / n * chain_var n (chain 0) := by
    rw [var_x_stat, hWeq, hB]
    ring
  have hdiv : var_x_stat m n chain / W_stat m n chain = ((n : ℝ) - 1) / n := by
    rw [hvarx, hWeq, mul_div_assoc, div_self hW.ne', mul_one]
  have hone : single_parameter_gr_stat m n chain = Real.sqrt (((n : ℝ) - 1) / n) := by
    rw [single_parameter_gr_stat, hdiv]
  have hlt : Real.sqrt (((n : ℝ) - 1) / n) < 1 := by
    have h01 : ((n : ℝ) - 1) / n < 1 := by
      rw [div_lt_one (by linarith)]
      linarith
    calc Real.sqrt (((n : ℝ) - 1) / n) < Real.sqrt 1 :=
          Real.sqrt_lt_sqrt (div_nonneg (by linarith) (by linarith)) h01
      _ = 1 := Real.sqrt_one
  refine ⟨hone, ?_, ?_⟩
  · rw [hone]; exact hlt
  · rw [hone]; exact not_lt.mpr hlt.le

/-- C6 witness: two identical chains `[0, 1]` of length 2 have within-chain variance
`1/2 > 0` and Gelman-Rubin statistic `sqrt ((2 - 1) / 2) < 1`. -/
theorem C6_gr_identical_chains_witness :
    0 < chain_var 2 (chain2 0) ∧
    single_parameter_gr_stat 2 2 chain2 = Real.sqrt (((2 : ℝ) - 1) / 2) ∧
    single_parameter_gr_stat 2 2 chain2 < 1 ∧
    ¬ 1 < single_parameter_gr_stat 2 2 chain2 := by
  have hv : chain_var 2 (fun j => (j : ℝ)) = 1/2 := by
    have hmean : chain_mean 2 (fun j => (j : ℝ)) = 1/2 := by
      rw [chain_mean, Finset.sum_range_succ, Finset.sum_range_one]
      norm_num
    rw [chain_var, Finset.sum_range_succ, Finset.sum_range_one, hmean]
    norm_num
  have hW0 : 0 < chain_var 2 (chain2 0) := by
    have h0 : chain_var 2 (chain2 0) = 1/2 := hv
    rw [h0]
    norm_num
  have hmain := C6_gr_identical_chains 2 2 le_rfl le_rfl chain2
    (fun i _ j _ => rfl) hW0
  refine ⟨hW0, ?_, hmain.2.1, hmain.2.2⟩
  rw [hmain.1]
  norm_num

/-! ### C10 -/

/-- C10: the division `var_x / W` in `single_parameter_gr_stat` is unguarded.  When
the kept samples have positive mean within-chain variance `W > 0`, the statistic is a
well-defined nonnegative real whose square is exactly `var_x / W`; and the
precondition is genuinely needed, because for an ensemble of constant chains the
denominator `W` is exactly 0, so the computed quotient is a division by zero. -/
theorem C10_gr_division_guard (m n : ℕ) (hm : 2 ≤ m) (hn : 2 ≤ n)
    (chain : ℕ → ℕ → ℝ) (hW : 0 < W_stat m n chain) :
    0 ≤ single_parameter_gr_stat m n chain ∧
    single_parameter_gr_stat m n chain ^ 2 =
      var_x_stat m n chain / W_stat m n chain ∧
    (∀ x : ℝ, W_stat m n (fun _ _ => x) = 0) := by
  have hmR : (2 : ℝ) ≤ m := by exact_mod_cast hm
  have hnR : (2 : ℝ) ≤ n := by exact_mod_cast hn
  have hvarnn : 0 ≤ var_x_stat m n chain := by
    rw [var_x_stat]
    have h1 : 0 ≤ ((n : ℝ) - 1) / n * W_stat m n chain :=
      mul_nonneg (div_nonneg (by linarith) (by linarith)) hW.le
    have h2 : 0 ≤ B_stat m n chain := by
      rw [B_stat]
      exact mul_nonneg (div_nonneg (by linarith) (by linarith))
        (Finset.sum_nonneg (fun i _ => sq_nonneg _))
    have h3 : 0 ≤ 1 / (n : ℝ) * B_stat m n chain :=
      mul_nonneg (by positivity) h2
    linarith
  refine ⟨Real.sqrt_nonneg _, ?_, ?_⟩
  · rw [single_parameter_gr_stat]
    exact Real.sq_sqrt (div_nonneg hvarnn hW.le)
  · intro x
    have hvar : chain_var n (fun _ : ℕ => x) = 0 := by
      have hmean : chain_mean n (fun _ : ℕ => x) = x := by
        rw [chain_mean, Finset.sum_const, Finset.card_range, nsmul_eq_mul]
        rw [mul_div_cancel_left₀ _ (by linarith : (n : ℝ) ≠ 0)]
      rw [chain_var, hmean]
      simp
    rw [W_stat]
    simp [hvar]

/-- C10 witness: the two-chain ensemble `chain2` has `W = 1/2 > 0`, a nonnegative
statistic squaring to `var_x / W`, and every constant ensemble has `W = 0`. -/
theorem C10_gr_division_guard_witness :
    0 < W_stat 2 2 chain2 ∧
    (0 ≤ single_parameter_gr_stat 2 2 chain2 ∧
     single_parameter_gr_stat 2 2 chain2 ^ 2 =
       var_x_stat 2 2 chain2 / W_stat 2 2 chain2 ∧
     (∀ x : ℝ, W_stat 2 2 (fun _ _ => x) = 0)) := by
  have hv : chain_var 2 (fun j => (j : ℝ)) = 1/2 := by
    have hmean : chain_mean 2 (fun j => (j : ℝ)) = 1/2 := by
      rw [chain_mean, Finset.sum_range_succ, Finset.sum_range_one]
      norm_num
    rw [chain_var, Finset.sum_range_succ, Finset.sum_range_one, hmean]
    norm_num
  have hW2 : 0 < W_stat 2 2 chain2 := by
    have h0 : chain_var 2 (chain2 0) = 1/2 := hv
    have h1 : chain_var 2 (chain2 1) = 1/2 := hv
    rw [W_stat, Finset.sum_range_succ, Finset.sum_range_one, h0, h1]
    norm_num
  exact ⟨hW2, C10_gr_division_guard 2 2 le_rfl le_rfl chain2 hW2⟩

/-! ### C7 -/

/-- C7: the burn-in loop of `run_MCMC` runs another epoch exactly when `gr_test` on
the cumulative chain is above the threshold `gr_limit = 1.2` — each epoch samples
`ninit` steps, appends the segment to the cumulative chain and restarts the walkers
from the segment's last sample (`item[-1]`); the loop recurses when the maximum
per-parameter R-hat, computed by `multi_parameter_gr_stat` over the second half of
the cumulative chain, exceeds the threshold and stops burning in otherwise, after
which the driver appends the `nsteps`-step production segment sampled from the final
burn-in positions. -/
theorem C7_burn_in_loop_guard
    (sampler : ℕ → (ℕ → ℕ → ℝ) → ℕ → (ℕ → ℕ → ℕ → ℝ)) (fuel : ℕ) (st : MCState)
    (ivals : ℕ → ℕ → ℝ) (clen : ℕ) (fchain : ℕ → ℕ → ℕ → ℝ) (i : ℕ) :
    (run_MCMC_loop sampler (fuel + 1) st =
      if gr_test (burn_in_epoch sampler st).chain_len
          (burn_in_epoch sampler st).full_chain gr_limit
      then run_MCMC_loop sampler fuel (burn_in_epoch sampler st)
      else some (burn_in_epoch sampler st)) ∧
    (gr_test clen fchain gr_limit ↔
      np_max (multi_parameter_gr_stat nwalkers clen fchain) n_cosmo_hyperparams
        > 1.2) ∧
    (multi_parameter_gr_stat nwalkers clen fchain i =
      single_parameter_gr_stat nwalkers (clen - clen / 2)
        (fun w j => fchain w (clen / 2 + j) i)) ∧
    ((burn_in_epoch sampler st).vals =
      fun w p => sampler st.burn_ins st.vals ninit w (ninit - 1) p) ∧
    ((burn_in_epoch sampler st).full_chain =
      concat_chain st.chain_len st.full_chain (sampler st.burn_ins st.vals ninit)) ∧
    ((burn_in_epoch sampler st).chain_len = st.chain_len + ninit) ∧
    ((burn_in_epoch sampler st).burn_ins = st.burn_ins + 1) ∧
    (run_MCMC sampler fuel ivals =
      (run_MCMC_loop sampler fuel (init_state ivals)).map (fun stf =>
        (stf.chain_len + nsteps,
          concat_chain stf.chain_len stf.full_chain
            (sampler stf.burn_ins stf.vals nsteps)))) := by
  refine ⟨?_, Iff.rfl, rfl, rfl, rfl, rfl, rfl, rfl⟩
  rw [run_MCMC_loop]
